import Mathlib

/-!
Verification development for the liedteksten NWC tooling.

The definitions below are a shallow embedding of the Python sources:
`nwc_utils.py` / `services/nwc-conv/app/nwc_utils.py` (document model),
`nwc_analyze.py` (structural analyzer), `nwc-concat.py` (concatenation
engine and duration calculator).  Python strings are modelled as Lean
`String` (with helpers working on `List Char`), file contents as lists of
lines, Python `int` as `Int`/`Nat`, Python `float` as `ℚ` (only total
arithmetic on it is exercised), exceptions as `Except`, and `None` as
`Option.none`.
-/

set_option maxRecDepth 8000

/-! ### Basic Python-style string helpers -/

/-- Python whitespace characters used by `str.strip()`. -/
def isPyWs (c : Char) : Bool :=
  c = ' ' || c = '\t' || c = '\n' || c = '\r' || c = Char.ofNat 11 || c = Char.ofNat 12

/-- Python `str.strip()` on a character list. -/
def pyStripChars (l : List Char) : List Char :=
  ((l.dropWhile isPyWs).reverse.dropWhile isPyWs).reverse

/-- Python `str.strip()`. -/
def pyStripStr (s : String) : String :=
  ⟨pyStripChars s.toList⟩

/-- Python `s.startswith(p)`. -/
def startsW (p s : String) : Bool :=
  p.toList.isPrefixOf s.toList

/-- Python `s.endswith(p)`. -/
def endsW (p s : String) : Bool :=
  p.toList.isSuffixOf s.toList

/-- Index of the first occurrence of `n` in `l` (Python `str.find`, as an option). -/
def firstOccIdx (n : List Char) : List Char → Option Nat
  | [] => if n.isEmpty then some 0 else none
  | c :: cs =>
    if n.isPrefixOf (c :: cs) then some 0
    else (firstOccIdx n cs).map (fun k => k + 1)

/-- Python `n in s` (substring containment). -/
def containsSub (n s : String) : Bool :=
  (firstOccIdx n.toList s.toList).isSome

/-- Python `s.split(n)[0]`: the part of `s` before the first occurrence of `n`,
or all of `s` when `n` does not occur. -/
def beforeFirstSub (n s : String) : String :=
  match firstOccIdx n.toList s.toList with
  | some k => ⟨s.toList.take k⟩
  | none => s

/-- Python `s.split(n)[1]`: the segment strictly between the first occurrence
of `n` and the following occurrence (or the end of the string).  Returns `""`
when `n` does not occur (the Python callers guard against that case). -/
def segAfterFirst (n s : String) : String :=
  match firstOccIdx n.toList s.toList with
  | some k =>
    let rest := s.toList.drop (k + n.toList.length)
    match firstOccIdx n.toList rest with
    | some j => ⟨rest.take j⟩
    | none => ⟨rest⟩
  | none => ""

/-- Fuelled worker for Python `str.count` (non-overlapping, left to right). -/
def countSubFuel (n : List Char) : Nat → List Char → Nat
  | 0, _ => 0
  | _ + 1, [] => 0
  | f + 1, c :: cs =>
    if n.isPrefixOf (c :: cs) then 1 + countSubFuel n f ((c :: cs).drop n.length)
    else countSubFuel n f cs

/-- Python `s.count(n)` for nonempty `n`. -/
def countSub (n s : String) : Nat :=
  countSubFuel n.toList s.toList.length s.toList

/-- Fuelled worker for Python `str.replace` (all non-overlapping occurrences,
left to right). -/
def replaceAllFuel (pat rep : List Char) : Nat → List Char → List Char
  | 0, l => l
  | _ + 1, [] => []
  | f + 1, c :: cs =>
    if pat ≠ [] ∧ pat.isPrefixOf (c :: cs) then
      rep ++ replaceAllFuel pat rep f ((c :: cs).drop pat.length)
    else c :: replaceAllFuel pat rep f cs

/-- Python `s.replace(pat, rep)`. -/
def replaceAll (pat rep s : String) : String :=
  ⟨replaceAllFuel pat.toList rep.toList s.toList.length s.toList⟩

/-- Split a character list at newline characters (Python `str.split(chr(10))`). -/
def splitNlChars : List Char → List String
  | [] => [""]
  | c :: cs =>
    if c = '\n' then "" :: splitNlChars cs
    else
      match splitNlChars cs with
      | [] => [⟨[c]⟩]
      | t :: ts => ⟨c :: t.toList⟩ :: ts

/-- Python `s.split(chr(10))`. -/
def pySplitNl (s : String) : List String :=
  splitNlChars s.toList

/-- Python `sep.join(lines)` with `sep` a newline. -/
def joinNl (ls : List String) : String :=
  String.intercalate "\n" ls

/-- Digits of a decimal literal, as a natural number (`none` if empty or
a non-digit occurs). -/
def digitsToNat : List Char → Option Nat
  | [] => none
  | l => go l 0
where
  go : List Char → Nat → Option Nat
    | [], acc => some acc
    | c :: cs, acc => if c.isDigit then go cs (acc * 10 + (c.toNat - 48)) else none

/-- Python `int(s)`: strips whitespace, allows one sign, then decimal digits. -/
def pyIntOfStr (s : String) : Option Int :=
  match pyStripChars s.toList with
  | [] => none
  | c :: rest =>
    if c = '-' then (digitsToNat rest).map (fun n => -(n : Int))
    else if c = '+' then (digitsToNat rest).map (fun n => (n : Int))
    else (digitsToNat (c :: rest)).map (fun n => (n : Int))

/-- Python `s.partition(chr(47))` restricted to the two components the code
uses: the part before the first slash and the part after it (both `""`-like
when absent, as in Python). -/
def pyPartitionSlash (s : String) : String × String :=
  match firstOccIdx ['/'] s.toList with
  | some k => (⟨s.toList.take k⟩, ⟨s.toList.drop (k + 1)⟩)
  | none => (s, "")

/-! ### Constants (`constants.py`) -/

def nwcAddStaff : String := "|AddStaff|"
def nwcStaffProps : String := "|StaffProperties|"
def nwcStaffInstr : String := "|StaffInstrument|"
def nwcClef : String := "|Clef|"
def nwcTimeSig : String := "|TimeSig|"
def nwcTempo : String := "|Tempo|"
def nwcBar : String := "|Bar|"
def nwcNote : String := "|Note|"
def nwcRest : String := "|Rest|"
def nwcText : String := "|Text|"
def nwcLyric1 : String := "|Lyric1|"
def nwcEndMarker : String := "!NoteWorthyComposer-End"
def liedstartMarker : String := "liedstart"
def bassStaffName : String := "Bass"
def zangStaffName : String := "Zang"

/-- The set of recognized element prefixes from the external input format. -/
def recognizedNwcLine (l : String) : Bool :=
  [nwcAddStaff, nwcStaffProps, nwcStaffInstr, nwcClef, nwcTimeSig, nwcTempo,
   nwcBar, nwcNote, nwcRest, nwcText, nwcLyric1].any (fun p => startsW p l)

/-! ### Document model (`NwcFile._parse` / `NwcFile.write_to_file`)

`_parse` keeps one mutable `current_staff` list and appends it (by
reference) to `self.staffs` both on a new `|AddStaff|` line and on the end
marker, without clearing it.  To model the Python aliasing we keep all
buffers in `bufs` and record, for every append event, the index of the
buffer that was appended; the staff's observable lines are the final
contents of that buffer. -/

structure ParseState where
  header : List String
  ids : List Nat
  bufs : List (List String)
  inHeader : Bool
deriving DecidableEq, Repr

def initParseState : ParseState := ⟨[], [], [], true⟩

/-- Python truthiness of `current_staff` (the last buffer, when any). -/
def currentNonempty (s : ParseState) : Bool :=
  match s.bufs.getLast? with
  | some b => !b.isEmpty
  | none => false

/-- Append a line to the buffer of the staff in progress (the last buffer). -/
def updLast : List (List String) → String → List (List String)
  | [], _ => []
  | [b], l => [b ++ [l]]
  | b :: b2 :: bs, l => b :: updLast (b2 :: bs) l

/-- One line of `NwcFile._parse`'s scanning loop. -/
def parseStep (s : ParseState) (line : String) : ParseState :=
  if startsW nwcAddStaff line then
    { header := s.header,
      ids := if currentNonempty s then s.ids ++ [s.bufs.length - 1] else s.ids,
      bufs := s.bufs ++ [[line]],
      inHeader := false }
  else if line = nwcEndMarker then
    { s with ids := if currentNonempty s then s.ids ++ [s.bufs.length - 1] else s.ids }
  else if s.inHeader then
    { s with header := s.header ++ [line] }
  else
    { s with bufs := updLast s.bufs line }

structure NwcDoc where
  headerLines : List String
  staffIds : List Nat
  bufs : List (List String)
deriving DecidableEq, Repr

/-- `NwcFile.__init__` on a list of (newline-stripped) lines. -/
def parseNwc (ls : List String) : NwcDoc :=
  let s := ls.foldl parseStep initParseState
  ⟨s.header, s.ids, s.bufs⟩

/-- The observable `staff.lines` of every appended staff (final buffer contents). -/
def NwcDoc.staffsLines (d : NwcDoc) : List (List String) :=
  d.staffIds.map (fun i => d.bufs.getD i [])

def flatAll : List (List String) → List String
  | [] => []
  | l :: ls => l ++ flatAll ls

/-- `NwcFile.write_to_file`: header lines, every staff's lines, end marker. -/
def serializeNwc (d : NwcDoc) : List String :=
  d.headerLines ++ flatAll d.staffsLines ++ [nwcEndMarker]

/-! ### Staff name lookup (`NwcStaff._extract_name`, `NwcFile.get_staff_by_name`) -/

/-- `NwcStaff._extract_name`: first line containing `Name:"`, value up to the
closing quote (Python's `find` returning `-1` yields the `[start:-1]` slice). -/
def extractName (lines : List String) : Option String :=
  match lines.find? (fun l => containsSub "Name:\"" l) with
  | none => none
  | some l =>
    let cs := l.toList
    let start := (firstOccIdx ("Name:\"").toList cs).getD 0 + 6
    let rest := cs.drop start
    match firstOccIdx ['"'] rest with
    | some k => some ⟨rest.take k⟩
    | none => some ⟨(cs.take (cs.length - 1)).drop start⟩

/-- `NwcFile.get_staff_by_name`, returning the staff's lines. -/
def getStaffByName (d : NwcDoc) (name : String) : Option (List String) :=
  d.staffsLines.find? (fun ls => extractName ls == some name)

/-- `NwcStaff.get_content`. -/
def staffContent (lines : List String) : String :=
  joinNl lines

/-! ### Structural analyzer (`nwc_analyze.py`) -/

/-- An apostrophe character, written via its code point. -/
def aposC : Char := Char.ofNat 39

/-- A backslash character. -/
def bslashC : Char := Char.ofNat 92

/-- The two-character Python source sequence backslash-apostrophe. -/
def escApos : String := ⟨[bslashC, aposC]⟩

/-- The two-character Python source sequence backslash-n. -/
def escNl : String := ⟨[bslashC, 'n']⟩

/-- `parse_song_info`: the regex `\|SongInfo\|Title:"([^"]*)"` with the
apostrophe escape undone; `"Unknown"` when it does not match. -/
def parseSongInfo (content : String) : String :=
  let markChars := ("|SongInfo|Title:\"").toList
  match firstOccIdx markChars content.toList with
  | none => "Unknown"
  | some i =>
    let rest := content.toList.drop (i + markChars.length)
    match firstOccIdx ['"'] rest with
    | none => "Unknown"
    | some j => replaceAll escApos ⟨[aposC]⟩ ⟨rest.take j⟩

/-- `count_bars_in_staff`: substring count of the bar prefix in the content. -/
def countBarsInStaff (staffCont : String) : Nat :=
  countSub nwcBar staffCont

/-- `detect_begintel`: the rest prefix occurs in the content before the first
occurrence of the bar prefix. -/
def detectBegintel (staffCont : String) : Bool :=
  containsSub nwcRest (beforeFirstSub nwcBar staffCont)

/-- The line prefix marking the song-start text element
(`|Text|Text:"liedstart"`). -/
def liedstartLineStart : String :=
  nwcText ++ "Text:\"" ++ liedstartMarker ++ "\""

/-- `count_vooraf_measures`: bar lines before the `liedstart` marker line,
minus one when positive and a pickup (begintel) is detected. -/
def countVooraf (staffCont : String) : Nat :=
  let lines := pySplitNl staffCont
  match lines.findIdx? (fun l => startsW liedstartLineStart (pyStripStr l)) with
  | none => 0
  | some li =>
    let barsBefore :=
      ((lines.take li).filter (fun l => startsW nwcBar (pyStripStr l))).length
    if barsBefore > 0 ∧ detectBegintel staffCont then barsBefore - 1 else barsBefore

/-- `parse_lyric_text`, step 1: the regex `\|Lyric1\|Text:"(.*?)"` (DOTALL). -/
def lyricPayload (lyricLine : String) : Option String :=
  let markChars := (nwcLyric1 ++ "Text:\"").toList
  match firstOccIdx markChars lyricLine.toList with
  | none => none
  | some i =>
    let rest := lyricLine.toList.drop (i + markChars.length)
    match firstOccIdx ['"'] rest with
    | none => none
    | some j => some ⟨rest.take j⟩

/-- `parse_lyric_text`, step 3: split on spaces and hyphens, keeping stripped
nonempty tokens. -/
def splitSyllables : List Char → List Char → List String
  | current, [] =>
    if (pyStripChars current.reverse).isEmpty then []
    else [⟨pyStripChars current.reverse⟩]
  | current, c :: cs =>
    if c = ' ' ∨ c = '-' then
      if (pyStripChars current.reverse).isEmpty then splitSyllables [] cs
      else ⟨pyStripChars current.reverse⟩ :: splitSyllables [] cs
    else splitSyllables (c :: current) cs

/-- `parse_lyric_text`: extract the quoted lyric payload, unescape the
apostrophe and line-break escapes, split into syllables. -/
def parseLyricText (lyricLine : String) : List String :=
  match lyricPayload lyricLine with
  | none => []
  | some t =>
    let t1 := replaceAll escApos ⟨[aposC]⟩ t
    let t2 := replaceAll escNl " " t1
    splitSyllables [] t2.toList

/-- Tied/slurred note test: `element.count(chr(83)...) > 0 or element.endswith(chr(94))`
— a `Slur` marker or a trailing tie glyph. -/
def isTiedEl (e : String) : Bool :=
  decide (countSub "Slur" e > 0) || endsW "^" e

/-- First-match association lookup (Python `dict` membership / indexing). -/
def lookupA : List (Int × List String) → Int → Option (List String)
  | [], _ => none
  | (k, v) :: t, q => if k = q then some v else lookupA t q

/-- `measure_map[k].append(v)` preceded by `measure_map.setdefault`-style
initialisation: append to the entry when present, else add a new entry. -/
def appendA : List (Int × List String) → Int → String → List (Int × List String)
  | [], k, s => [(k, [s])]
  | (k0, v) :: t, k, s =>
    if k0 = k then (k0, v ++ [s]) :: t else (k0, v) :: appendA t k s

/-- `if k not in measure_map: measure_map[k] = []`. -/
def ensureKey (m : List (Int × List String)) (k : Int) : List (Int × List String) :=
  if (lookupA m k).isSome then m else m ++ [(k, [])]

structure LyricState where
  measureMap : List (Int × List String)
  currentMeasure : Int
  syllableIndex : Nat
  skipNextNote : Bool
deriving DecidableEq, Repr

def initLyricState : LyricState := ⟨[], 0, 0, false⟩

/-- One iteration of `map_lyrics_to_measures`'s element loop. -/
def lyricStep (syls : List String) (s : LyricState) (el : String) : LyricState :=
  let e := pyStripStr el
  if startsW nwcBar e then
    { s with currentMeasure := s.currentMeasure + 1,
             measureMap := ensureKey s.measureMap (s.currentMeasure + 1) }
  else if startsW nwcNote e ∧ s.syllableIndex < syls.length then
    if s.skipNextNote then { s with skipNextNote := isTiedEl e }
    else
      { s with measureMap := appendA s.measureMap s.currentMeasure (syls.getD s.syllableIndex ""),
               syllableIndex := s.syllableIndex + 1,
               skipNextNote := isTiedEl e }
  else s

def processLyricEls (syls : List String) (els : List String) (s : LyricState) : LyricState :=
  els.foldl (lyricStep syls) s

/-- `map_lyrics_to_measures`. -/
def mapLyricsToMeasures (staffCont : String) (syls : List String) :
    List (Int × List String) :=
  (processLyricEls syls (pySplitNl staffCont) initLyricState).measureMap

structure SongAnalysis where
  title : String
  file : String
  folder : String
  totalMeasures : Int
  hasBegintel : Bool
  vooraf : Nat
  measureMap : List (Int × List String)
deriving DecidableEq, Repr

/-- `analyze_nwctxt` on a parsed document (the file name and parent folder,
which Python reads from the path, are passed in). -/
def analyzeNwctxt (d : NwcDoc) (fileName folderName : String) : Option SongAnalysis :=
  let title := parseSongInfo (joinNl d.headerLines)
  match getStaffByName d bassStaffName with
  | none => none
  | some bass =>
    let bc := staffContent bass
    let totalBars := countBarsInStaff bc
    let begintel := detectBegintel bc
    let totalM : Int := if begintel then (totalBars : Int) else (totalBars : Int) + 1
    let vooraf := countVooraf bc
    match getStaffByName d zangStaffName with
    | none => none
    | some zang =>
      let zc := staffContent zang
      let syls := parseLyricText zc
      some { title := title, file := fileName, folder := folderName,
             totalMeasures := totalM, hasBegintel := begintel, vooraf := vooraf,
             measureMap := mapLyricsToMeasures zc syls }

/-- The tempo extraction loop of `analyze_complete_song`: first `|Tempo|` line
whose `Tempo:` field parses as an int (parse failures skip to later lines). -/
def extractTempoFromLines : List String → Option Int
  | [] => none
  | l :: ls =>
    if startsW nwcTempo l ∧ containsSub "Tempo:" l then
      match pyIntOfStr (beforeFirstSub "|" (segAfterFirst "Tempo:" l)) with
      | some t => some t
      | none => extractTempoFromLines ls
    else extractTempoFromLines ls

/-- The time-signature extraction loop of `analyze_complete_song`. -/
def extractTimesigFromLines : List String → Option String
  | [] => none
  | l :: ls =>
    if startsW (nwcTimeSig ++ "Signature:") l then
      some (beforeFirstSub "|" (segAfterFirst (nwcTimeSig ++ "Signature:") l))
    else extractTimesigFromLines ls

structure CompleteAnalysis where
  title : String
  file : String
  folder : String
  tempo : Option Int
  timesig : Option String
  totalBars : Nat
  hasBegintel : Bool
  vooraf : Nat
  totalMeasures : Int
  totalDuration : Option ℚ
  measureMap : List (Int × List String)
deriving DecidableEq, Repr

/-- `analyze_complete_song` on a parsed document. -/
def analyzeCompleteSong (d : NwcDoc) (tempo0 : Option Int) (timesig0 : Option String)
    (fileName folderName : String) : Option CompleteAnalysis :=
  match analyzeNwctxt d fileName folderName with
  | none => none
  | some b =>
    let bassLines := (getStaffByName d bassStaffName).getD []
    let tempo := match tempo0 with
      | some t => some t
      | none => extractTempoFromLines bassLines
    let timesig := match timesig0 with
      | some ts => some ts
      | none => extractTimesigFromLines bassLines
    let corrected : Int := b.totalMeasures - (b.vooraf : Int)
    let dur : Option ℚ :=
      match tempo, timesig with
      | some t, some ts =>
        if t ≠ 0 ∧ ts ≠ "" then
          match pyIntOfStr (pyPartitionSlash ts).1 with
          | none => none
          | some bpm =>
            let beatDuration : ℚ := 1 / ((t : ℚ) / 60)
            some ((corrected : ℚ) * ((bpm : ℚ) * beatDuration))
        else none
      | _, _ => none
    some { title := b.title, file := b.file, folder := b.folder,
           tempo := tempo, timesig := timesig,
           totalBars := countBarsInStaff (staffContent ((getStaffByName d bassStaffName).getD [])),
           hasBegintel := b.hasBegintel, vooraf := b.vooraf,
           totalMeasures := corrected, totalDuration := dur,
           measureMap := b.measureMap.map (fun p => (p.1 - (b.vooraf : Int), p.2)) }

/-- Insertion into a sorted list of keys (Python `sorted` on unique keys). -/
def insertSortedInt (x : Int) : List Int → List Int
  | [] => [x]
  | y :: ys => if x ≤ y then x :: y :: ys else y :: insertSortedInt x ys

def sortInts (l : List Int) : List Int :=
  l.foldr insertSortedInt []

/-- `format_output`: the list of report lines (Python joins them with
newlines at the end). -/
def formatOutput (a : CompleteAnalysis) (songNumber : Option String) : List String :=
  ["*** NWC ANALYSE ***", "",
   "Analyse van: " ++ a.file,
   "Locatie: " ++ a.folder, "",
   "liedtitel: " ++ a.title] ++
  (match songNumber with
   | some n => ["liednummer: " ++ n]
   | none => []) ++
  ["totaal aantal maten: " ++ toString a.totalMeasures,
   "heeft begintel: " ++ (if a.hasBegintel then "ja" else "nee"),
   "aantal maten vooraf: " ++ toString a.vooraf, "",
   "maat\ttekst"] ++
  ((sortInts (a.measureMap.map (fun p => p.1))).filter (fun m => m ≠ 0)).map
    (fun m => toString m ++ "\t" ++ String.intercalate " " ((lookupA a.measureMap m).getD []))

/-! ### Concatenation engine (`nwc-concat.py`, `concatenate_nwctxt_files`) -/

/-- A parsed section file as `parse_nwctxt` returns it. -/
structure PFile where
  header : List String
  staffs : List (List String)
deriving DecidableEq, Repr

/-- The `skip_prefixes` list (tempo dropped unless `keep_tempi`). -/
def skipSetupList (keepTempi : Bool) : List String :=
  [nwcAddStaff, nwcStaffProps, nwcStaffInstr, nwcClef, nwcTimeSig] ++
    (if keepTempi then [] else [nwcTempo])

/-- Drop the staff-setup lines of a later section's staff. -/
def dropSetupLines (keepTempi : Bool) (lines : List String) : List String :=
  lines.filter (fun l => !(skipSetupList keepTempi).any (fun p => startsW p l))

/-- The double-bar separator line inserted between sections
(`f-string` of the bar prefix and `|Style:Double`). -/
def doubleBarLine : String := nwcBar ++ "|Style:Double"

/-- Join one later-section staff onto the accumulated staff: drop setup lines,
insert the separator when the remainder does not start with a bar line. -/
def joinSecondStaff (keepTempi : Bool) (acc second : List String) : List String :=
  match dropSetupLines keepTempi second with
  | [] => acc
  | h :: t =>
    if startsW nwcBar h then acc ++ (h :: t)
    else acc ++ [doubleBarLine] ++ (h :: t)

/-- Fold one later file into the accumulated staves (staffs beyond the common
count are left untouched, mirroring the warning path). -/
def concatStep (keepTempi : Bool) (acc : List (List String)) (staffs : List (List String)) :
    List (List String) :=
  let n := min acc.length staffs.length
  List.zipWith (joinSecondStaff keepTempi) (acc.take n) (staffs.take n) ++ acc.drop n

/-- `concatenate_nwctxt_files` (the nonempty file list is passed as first
file plus rest): output file lines, end marker included. -/
def concatenateNwctxt (first : PFile) (rest : List PFile) (keepTempi : Bool) :
    List String :=
  let staffs := rest.foldl (fun acc f => concatStep keepTempi acc f.staffs) first.staffs
  first.header ++ flatAll staffs ++ [nwcEndMarker]

/-! ### Duration calculation (`nwc-concat.py`, `get_duration`)

A `lieddeel` entry `(name, measure_count, start_time)`; `Except.error`
models an uncaught Python exception escaping `get_duration`. -/

def DurEntry : Type := String × Option Int × Option ℚ

/-- `sum(measure_count * measure_duration)`; multiplying `None` raises. -/
def sumEntryDurations (md : ℚ) : List DurEntry → Except String ℚ
  | [] => Except.ok 0
  | (_, none, _) :: _ => Except.error "TypeError"
  | (_, some m, _) :: t =>
    match sumEntryDurations md t with
    | Except.error e => Except.error e
    | Except.ok rest => Except.ok ((m : ℚ) * md + rest)

/-- `get_duration`: total duration in seconds, `ok none` when data is
unknown, `error` when an exception escapes (the bare `int(...)` calls on the
time-signature components are not guarded). -/
def getDuration (entries : Option (List DurEntry)) (tempo : Option Int)
    (timesig : Option String) (beatsUpFront : Option ℚ) : Except String (Option ℚ) :=
  let beatsBefore : ℚ := beatsUpFront.getD 0
  match entries, tempo, timesig with
  | some es, some t, some ts =>
    if t = 0 then Except.ok none
    else
      let beatDuration : ℚ := 1 / ((t : ℚ) / 60)
      let parts := pyPartitionSlash ts
      match pyIntOfStr parts.1 with
      | none => Except.error "ValueError"
      | some bpm =>
        match pyIntOfStr parts.2 with
        | none => Except.error "ValueError"
        | some _ =>
          let measureDuration : ℚ := (bpm : ℚ) * beatDuration
          match sumEntryDurations measureDuration es with
          | Except.error e => Except.error e
          | Except.ok tot => Except.ok (some (tot + beatsBefore * beatDuration))
  | _, _, _ => Except.ok none

/-! ### Mute/volume rewrite (`services/nwc-conv/app/nwc_utils.py`,
`NwcStaff.set_muted_and_volume`) -/

def mutedKeyChars : List Char := ("Muted:").toList
def volumeKeyChars : List Char := ("Volume:").toList

/-- Does the list start with a `Y` or `N` flag character? -/
def flagYN : List Char → Bool
  | c :: _ => c = 'Y' || c = 'N'
  | [] => false

/-- Does the list start with a decimal digit? -/
def headDigit : List Char → Bool
  | c :: _ => c.isDigit
  | [] => false

/-- Fuelled worker for `re.sub(r'Muted:[YN]', ..., line)`: scan left to
right, replace the flag character of every `Muted:` field. -/
def subMutFuel (flag : Char) : Nat → List Char → List Char
  | 0, l => l
  | _ + 1, [] => []
  | f + 1, c :: cs =>
    if mutedKeyChars.isPrefixOf (c :: cs) ∧ flagYN ((c :: cs).drop 6) then
      mutedKeyChars ++ flag :: subMutFuel flag f ((c :: cs).drop 7)
    else c :: subMutFuel flag f cs

/-- Fuelled worker for `re.sub(r'Volume:' digits, ..., line)`: replace every
maximal digit run of a `Volume:` field with the new digits. -/
def subVolFuel (ds : List Char) : Nat → List Char → List Char
  | 0, l => l
  | _ + 1, [] => []
  | f + 1, c :: cs =>
    if volumeKeyChars.isPrefixOf (c :: cs) ∧ headDigit ((c :: cs).drop 7) then
      volumeKeyChars ++ ds ++ subVolFuel ds f (((c :: cs).drop 7).dropWhile Char.isDigit)
    else c :: subVolFuel ds f cs

def reSubMuted (flag : Char) (s : String) : String :=
  ⟨subMutFuel flag s.toList.length s.toList⟩

def reSubVolume (ds : List Char) (s : String) : String :=
  ⟨subVolFuel ds s.toList.length s.toList⟩

/-- The flag character written for the `muted` argument. -/
def muteFlag (muted : Bool) : Char :=
  if muted then 'Y' else 'N'

/-- The decimal digits written for the `volume` argument. -/
def volumeDigits (volume : Nat) : List Char :=
  (toString volume).toList

/-- The loop locating the second `|StaffProperties|` line. -/
def secondSPIdxAux : List String → Nat → Nat → Option Nat
  | [], _, _ => none
  | l :: ls, i, cnt =>
    if startsW nwcStaffProps l then
      if cnt + 1 = 2 then some i else secondSPIdxAux ls (i + 1) (cnt + 1)
    else secondSPIdxAux ls (i + 1) cnt

def secondSPIdx (lines : List String) : Option Nat :=
  secondSPIdxAux lines 0 0

/-- `NwcStaff.set_muted_and_volume` on the staff's lines. -/
def setMutedAndVolume (lines : List String) (muted : Bool) (volume : Nat) :
    List String :=
  match secondSPIdx lines with
  | none => lines
  | some i =>
    lines.set i (reSubVolume (volumeDigits volume) (reSubMuted (muteFlag muted) (lines.getD i "")))

/-! ### Specification-side definitions

These definitions follow the spec's words (not the code) and are used to
compare the code's behaviour against the claims. -/

/-- Spec reading of "a rest element appears before the first bar element":
some line before the first bar-prefixed line is rest-prefixed. -/
def specRestElementBeforeFirstBar (lines : List String) : Bool :=
  (lines.takeWhile (fun l => !startsW nwcBar l)).any (fun l => startsW nwcRest l)

/-- The character list `n` occurs in `l` starting at index `i`. -/
def subOccAt (n l : List Char) (i : Nat) : Prop :=
  n <+: l.drop i

/-- Only `Muted:` flag characters are rewritten (to `flag`): the two lists
decompose identically except at such flags. -/
inductive MutedRw (flag : Char) : List Char → List Char → Prop
  | nil : MutedRw flag [] []
  | copy (c : Char) {xs ys : List Char} :
      MutedRw flag xs ys → MutedRw flag (c :: xs) (c :: ys)
  | rw (d : Char) {xs ys : List Char} :
      (d = 'Y' ∨ d = 'N') → MutedRw flag xs ys →
      MutedRw flag (mutedKeyChars ++ d :: xs) (mutedKeyChars ++ flag :: ys)

/-- Only `Volume:` digit runs are rewritten (to `ds`): the two lists
decompose identically except at such runs. -/
inductive VolumeRw (ds : List Char) : List Char → List Char → Prop
  | nil : VolumeRw ds [] []
  | copy (c : Char) {xs ys : List Char} :
      VolumeRw ds xs ys → VolumeRw ds (c :: xs) (c :: ys)
  | rw (olds : List Char) {xs ys : List Char} :
      olds ≠ [] → (∀ c ∈ olds, c.isDigit) → VolumeRw ds xs ys →
      VolumeRw ds (volumeKeyChars ++ (olds ++ xs)) (volumeKeyChars ++ (ds ++ ys))

/-! ### Parser lemmas -/

theorem flatAll_append (xs ys : List (List String)) :
    flatAll (xs ++ ys) = flatAll xs ++ flatAll ys := by
  induction xs with
  | nil => rfl
  | cons x t ih => simp [flatAll, ih]

theorem updLast_cons (b0 : List String) {rest : List (List String)} (h : rest ≠ [])
    (l : String) : updLast (b0 :: rest) l = b0 :: updLast rest l := by
  cases rest with
  | nil => exact absurd rfl h
  | cons b1 t => rfl

theorem updLast_snoc (bs : List (List String)) (b : List String) (l : String) :
    updLast (bs ++ [b]) l = bs ++ [b ++ [l]] := by
  induction bs with
  | nil => rfl
  | cons b0 t ih =>
    rw [List.cons_append, updLast_cons b0 (by simp) l, ih]
    rfl

theorem updLast_flat {bufs : List (List String)} (h : bufs ≠ []) (l : String) :
    flatAll (updLast bufs l) = flatAll bufs ++ [l] := by
  rcases List.eq_nil_or_concat' bufs with rfl | ⟨bs, b, rfl⟩
  · exact absurd rfl h
  · rw [updLast_snoc, flatAll_append, flatAll_append]
    simp [flatAll]

theorem updLast_length (bufs : List (List String)) (l : String) :
    (updLast bufs l).length = bufs.length := by
  induction bufs with
  | nil => rfl
  | cons b t ih =>
    cases t with
    | nil => rfl
    | cons b1 t1 => simpa [updLast] using ih

theorem updLast_ne_nil {bufs : List (List String)} (h : ∀ b ∈ bufs, b ≠ [])
    (l : String) : ∀ b ∈ updLast bufs l, b ≠ [] := by
  induction bufs with
  | nil => simp [updLast]
  | cons b0 t ih =>
    cases t with
    | nil =>
      intro b hb
      simp [updLast] at hb
      subst hb
      simp
    | cons b1 t1 =>
      intro b hb
      rw [updLast_cons b0 (by simp) l] at hb
      rcases List.mem_cons.mp hb with h0 | h1
      · exact h0 ▸ h b0 (by simp)
      · exact ih (fun x hx => h x (List.mem_cons_of_mem _ hx)) b h1

theorem currentNonempty_of_ne {s : ParseState} (h : s.bufs ≠ [])
    (h3 : ∀ b ∈ s.bufs, b ≠ []) : currentNonempty s = true := by
  unfold currentNonempty
  cases hg : s.bufs.getLast? with
  | none => exact absurd (List.getLast?_eq_none_iff.mp hg) h
  | some b =>
    have hb : b ∈ s.bufs := by
      obtain ⟨hne, heq⟩ :=
        List.mem_getLast?_eq_getLast (l := s.bufs) (x := b) (by simp [Option.mem_def, hg])
      exact heq ▸ List.getLast_mem hne
    simp [List.isEmpty_iff, h3 b hb]

theorem currentNonempty_of_nil {s : ParseState} (h : s.bufs = []) :
    currentNonempty s = false := by
  unfold currentNonempty
  simp [h]

/-- The invariant maintained while scanning lines none of which is the end
marker: header plus buffers reconstruct the input, every buffer except the
last has been flushed exactly once, buffers are nonempty, and the header
flag tracks whether a staff has started. -/
def GoodState (s : ParseState) (seen : List String) : Prop :=
  s.header ++ flatAll s.bufs = seen ∧
  s.ids = List.range (s.bufs.length - 1) ∧
  (∀ b ∈ s.bufs, b ≠ []) ∧
  s.inHeader = s.bufs.isEmpty

theorem parseStep_good {s : ParseState} {seen : List String} (hs : GoodState s seen)
    {l : String} (hl : l ≠ nwcEndMarker) :
    GoodState (parseStep s l) (seen ++ [l]) := by
  obtain ⟨h1, h2, h3, h4⟩ := hs
  unfold parseStep
  by_cases ha : startsW nwcAddStaff l = true
  · simp only [ha, if_true]
    refine ⟨?_, ?_, ?_, ?_⟩
    · show s.header ++ flatAll (s.bufs ++ [[l]]) = seen ++ [l]
      rw [flatAll_append, ← List.append_assoc, h1]
      simp [flatAll]
    · show (if currentNonempty s then s.ids ++ [s.bufs.length - 1] else s.ids)
        = List.range ((s.bufs ++ [[l]]).length - 1)
      by_cases hb : s.bufs = []
      · have hc := currentNonempty_of_nil hb
        simp [hc, hb, h2]
      · have hc := currentNonempty_of_ne hb h3
        have hk : s.bufs.length - 1 + 1 = s.bufs.length :=
          Nat.succ_pred_eq_of_pos (List.length_pos.mpr hb)
        simp only [hc, if_true, h2, List.length_append, List.length_cons,
          List.length_nil, Nat.add_sub_cancel, Nat.zero_add]
        rw [← List.range_succ]
        exact congrArg List.range hk
    · intro b hbm
      rcases List.mem_append.mp hbm with h0 | h1'
      · exact h3 b h0
      · simp at h1'
        simp [h1']
    · show false = ((s.bufs ++ [[l]]).isEmpty : Bool)
      cases s.bufs <;> rfl
  · simp only [Bool.not_eq_true] at ha
    simp only [ha, Bool.false_eq_true, if_false, if_neg hl]
    by_cases hh : s.inHeader = true
    · have hb : s.bufs = [] := List.isEmpty_iff.mp (h4 ▸ hh)
      simp only [hh, if_true]
      refine ⟨?_, h2, h3, hh ▸ h4⟩
      show (s.header ++ [l]) ++ flatAll s.bufs = seen ++ [l]
      rw [hb] at h1 ⊢
      simp only [flatAll, List.append_nil] at h1 ⊢
      rw [h1]
    · have hh' : s.inHeader = false := by
        cases hx : s.inHeader
        · rfl
        · exact absurd hx hh
      have hb : s.bufs ≠ [] := by
        intro hx
        rw [h4, hx] at hh'
        simp at hh'
      simp only [hh', Bool.false_eq_true, if_false]
      refine ⟨?_, ?_, updLast_ne_nil h3 l, ?_⟩
      · show s.header ++ flatAll (updLast s.bufs l) = seen ++ [l]
        rw [updLast_flat hb, ← List.append_assoc, h1]
      · show s.ids = List.range ((updLast s.bufs l).length - 1)
        rw [updLast_length, h2]
      · show false = ((updLast s.bufs l).isEmpty : Bool)
        have hlen : (updLast s.bufs l).length = s.bufs.length := updLast_length s.bufs l
        have hne : updLast s.bufs l ≠ [] := by
          intro hx
          rw [hx] at hlen
          exact hb (List.length_eq_zero.mp hlen.symm)
        cases hx : updLast s.bufs l with
        | nil => exact absurd hx hne
        | cons c cs => rfl

theorem foldl_parseStep_good (ls : List String) :
    ∀ (s : ParseState) (seen : List String), GoodState s seen →
      (∀ l ∈ ls, l ≠ nwcEndMarker) →
      GoodState (ls.foldl parseStep s) (seen ++ ls) := by
  induction ls with
  | nil => intro s seen h _; simpa using h
  | cons l t ih =>
    intro s seen h hl
    have h1 := parseStep_good h (hl l (by simp))
    have h2 := ih (parseStep s l) (seen ++ [l]) h1 (fun x hx => hl x (by simp [hx]))
    simpa using h2

theorem map_getD_range (bs : List (List String)) :
    (List.range bs.length).map (fun i => bs.getD i []) = bs := by
  induction bs with
  | nil => simp
  | cons b t ih =>
    rw [List.length_cons, List.range_succ_eq_map, List.map_cons, List.map_map]
    refine congrArg₂ List.cons rfl ?_
    have he : ((fun i => List.getD (b :: t) i []) ∘ Nat.succ) = fun i => List.getD t i [] := by
      funext i
      rfl
    rw [he, ih]

/-- C1: for every line sequence using only the recognized element prefixes
whose single end-marker line is the last line, serializing the parsed
document (header lines, each staff's lines in order, then the end marker)
reproduces the input exactly. -/
theorem roundtrip_serialize_parse (ys : List String)
    (hrec : ∀ l ∈ ys, recognizedNwcLine l = true)
    (hend : ∀ l ∈ ys, l ≠ nwcEndMarker) :
    serializeNwc (parseNwc (ys ++ [nwcEndMarker])) = ys ++ [nwcEndMarker] := by
  have hinit : GoodState initParseState [] := ⟨rfl, rfl, by simp [initParseState], rfl⟩
  have hgood := foldl_parseStep_good ys initParseState [] hinit hend
  rw [List.nil_append] at hgood
  obtain ⟨h1, h2, h3, h4⟩ := hgood
  set sfin := ys.foldl parseStep initParseState with hsfin
  have hna : startsW nwcAddStaff nwcEndMarker = false := by decide
  have hfold : parseNwc (ys ++ [nwcEndMarker])
      = ⟨(parseStep sfin nwcEndMarker).header, (parseStep sfin nwcEndMarker).ids,
         (parseStep sfin nwcEndMarker).bufs⟩ := by
    simp only [parseNwc, List.foldl_append, List.foldl_cons, List.foldl_nil, hsfin]
  rw [hfold]
  by_cases hb : sfin.bufs = []
  · have hc := currentNonempty_of_nil hb
    have hstep : parseStep sfin nwcEndMarker = sfin := by
      unfold parseStep
      simp only [hna, Bool.false_eq_true, if_false, if_pos rfl, hc, if_true]
    rw [hstep]
    unfold serializeNwc NwcDoc.staffsLines
    rw [hb] at h1 h2
    simp only [flatAll, List.append_nil] at h1
    simp only [List.length_nil, Nat.zero_sub, List.range_zero] at h2
    simp [h1, h2, flatAll]
  · have hc := currentNonempty_of_ne hb h3
    have hstep : parseStep sfin nwcEndMarker
        = { sfin with ids := sfin.ids ++ [sfin.bufs.length - 1] } := by
      unfold parseStep
      simp only [hna, Bool.false_eq_true, if_false, if_pos rfl, hc, if_true]
    rw [hstep]
    unfold serializeNwc NwcDoc.staffsLines
    have hk : sfin.bufs.length - 1 + 1 = sfin.bufs.length :=
      Nat.succ_pred_eq_of_pos (List.length_pos.mpr hb)
    have hids : sfin.ids ++ [sfin.bufs.length - 1] = List.range sfin.bufs.length := by
      rw [h2, ← List.range_succ]
      exact congrArg List.range hk
    show sfin.header
        ++ flatAll ((sfin.ids ++ [sfin.bufs.length - 1]).map (fun i => sfin.bufs.getD i []))
        ++ [nwcEndMarker] = ys ++ [nwcEndMarker]
    rw [hids, map_getD_range, h1]

/-- Witness for C1 at a concrete two-line staff document. -/
theorem roundtrip_serialize_parse_witness :
    serializeNwc (parseNwc (["|AddStaff|Name:\"Bass\"", "|Note|Dur:4th"] ++ [nwcEndMarker]))
      = ["|AddStaff|Name:\"Bass\"", "|Note|Dur:4th"] ++ [nwcEndMarker] :=
  roundtrip_serialize_parse ["|AddStaff|Name:\"Bass\"", "|Note|Dur:4th"]
    (by decide) (by decide)

/-! ### C10: a second end marker duplicates the staff in progress -/

theorem foldl_parseStep_headerOnly (ls : List String) :
    ∀ (s : ParseState),
      (∀ l ∈ ls, startsW nwcAddStaff l = false ∧ l ≠ nwcEndMarker) →
      s.inHeader = true → s.bufs = [] →
      ls.foldl parseStep s = { s with header := s.header ++ ls } := by
  induction ls with
  | nil => intro s _ _ _; simp
  | cons l t ih =>
    intro s hls hin hbufs
    obtain ⟨hna, hne⟩ := hls l (by simp)
    have hstep : parseStep s l = { s with header := s.header ++ [l] } := by
      unfold parseStep
      simp only [hna, Bool.false_eq_true, if_false, if_neg hne, hin, if_true]
    rw [List.foldl_cons, hstep,
      ih _ (fun x hx => hls x (by simp [hx])) (by simp [hin]) (by simp [hbufs])]
    simp

theorem foldl_parseStep_staffLines (ls : List String) :
    ∀ (s : ParseState) (bs : List (List String)) (b : List String),
      (∀ l ∈ ls, startsW nwcAddStaff l = false ∧ l ≠ nwcEndMarker) →
      s.inHeader = false → s.bufs = bs ++ [b] →
      ls.foldl parseStep s = { s with bufs := bs ++ [b ++ ls] } := by
  induction ls with
  | nil =>
    intro s bs b _ _ hbufs
    simp [← hbufs]
  | cons l t ih =>
    intro s bs b hls hin hbufs
    obtain ⟨hna, hne⟩ := hls l (by simp)
    have hstep : parseStep s l = { s with bufs := bs ++ [b ++ [l]] } := by
      unfold parseStep
      simp only [hna, Bool.false_eq_true, if_false, if_neg hne, hin, if_true,
        hbufs, updLast_snoc]
    rw [List.foldl_cons, hstep,
      ih _ bs (b ++ [l]) (fun x hx => hls x (by simp [hx])) (by simp [hin]) (by simp)]
    simp

/-- C10 (implicit): `_parse` does not clear the staff buffer at an end-marker
line, so on an input with two end-marker lines, staff lines in between and no
add-staff line in between, the staff in progress is appended to the staves
list twice: both entries are the same buffer, which also receives the lines
appearing after the first end marker — the document does not end at the
first end marker. -/
theorem double_end_marker_duplicates_staff (hs : List String) (a : String)
    (st m : List String)
    (hhs : ∀ l ∈ hs, startsW nwcAddStaff l = false ∧ l ≠ nwcEndMarker)
    (ha : startsW nwcAddStaff a = true)
    (hst : ∀ l ∈ st, startsW nwcAddStaff l = false ∧ l ≠ nwcEndMarker)
    (hm : m ≠ [])
    (hmm : ∀ l ∈ m, startsW nwcAddStaff l = false ∧ l ≠ nwcEndMarker) :
    (parseNwc (hs ++ [a] ++ st ++ [nwcEndMarker] ++ m ++ [nwcEndMarker])).staffIds
        = [0, 0] ∧
    (parseNwc (hs ++ [a] ++ st ++ [nwcEndMarker] ++ m ++ [nwcEndMarker])).staffsLines
        = [a :: (st ++ m), a :: (st ++ m)] ∧
    (parseNwc (hs ++ [a] ++ st ++ [nwcEndMarker] ++ m ++ [nwcEndMarker])).headerLines
        = hs := by
  have hna : startsW nwcAddStaff nwcEndMarker = false := by decide
  have e1 : List.foldl parseStep initParseState hs = ⟨hs, [], [], true⟩ := by
    rw [foldl_parseStep_headerOnly hs initParseState hhs rfl rfl]
    simp [initParseState]
  have e2 : List.foldl parseStep (⟨hs, [], [], true⟩ : ParseState) [a]
      = ⟨hs, [], [[a]], false⟩ := by
    rw [List.foldl_cons, List.foldl_nil]
    unfold parseStep
    simp only [ha, if_true]
    have hc : currentNonempty (⟨hs, [], [], true⟩ : ParseState) = false := rfl
    simp [hc]
  have e3 : List.foldl parseStep (⟨hs, [], [[a]], false⟩ : ParseState) st
      = ⟨hs, [], [a :: st], false⟩ := by
    rw [foldl_parseStep_staffLines st _ [] [a] hst rfl rfl]
    simp
  have e4 : List.foldl parseStep (⟨hs, [], [a :: st], false⟩ : ParseState) [nwcEndMarker]
      = ⟨hs, [0], [a :: st], false⟩ := by
    rw [List.foldl_cons, List.foldl_nil]
    unfold parseStep
    have hc : currentNonempty (⟨hs, [], [a :: st], false⟩ : ParseState) = true := rfl
    simp only [hna, Bool.false_eq_true, if_false, if_pos rfl, hc, if_true]
    simp
  have e5 : List.foldl parseStep (⟨hs, [0], [a :: st], false⟩ : ParseState) m
      = ⟨hs, [0], [a :: (st ++ m)], false⟩ := by
    rw [foldl_parseStep_staffLines m _ [] (a :: st) hmm rfl rfl]
    simp
  have e6 : List.foldl parseStep (⟨hs, [0], [a :: (st ++ m)], false⟩ : ParseState)
      [nwcEndMarker] = ⟨hs, [0, 0], [a :: (st ++ m)], false⟩ := by
    rw [List.foldl_cons, List.foldl_nil]
    unfold parseStep
    have hc : currentNonempty (⟨hs, [0], [a :: (st ++ m)], false⟩ : ParseState) = true := rfl
    simp only [hna, Bool.false_eq_true, if_false, if_pos rfl, hc, if_true]
    simp
  have hdoc : parseNwc (hs ++ [a] ++ st ++ [nwcEndMarker] ++ m ++ [nwcEndMarker])
      = ⟨hs, [0, 0], [a :: (st ++ m)]⟩ := by
    simp only [parseNwc, List.foldl_append]
    rw [e1, e2, e3, e4, e5, e6]
  rw [hdoc]
  refine ⟨rfl, ?_, rfl⟩
  simp [NwcDoc.staffsLines]

/-- Witness for C10 at a concrete input with two end markers. -/
theorem double_end_marker_duplicates_staff_witness :
    (parseNwc (["h"] ++ ["|AddStaff|Name:\"A\""] ++ ["|Note|Dur:4th"] ++ [nwcEndMarker]
        ++ ["|Bar|"] ++ [nwcEndMarker])).staffIds = [0, 0] ∧
    (parseNwc (["h"] ++ ["|AddStaff|Name:\"A\""] ++ ["|Note|Dur:4th"] ++ [nwcEndMarker]
        ++ ["|Bar|"] ++ [nwcEndMarker])).staffsLines
      = [["|AddStaff|Name:\"A\"", "|Note|Dur:4th", "|Bar|"],
         ["|AddStaff|Name:\"A\"", "|Note|Dur:4th", "|Bar|"]] ∧
    (parseNwc (["h"] ++ ["|AddStaff|Name:\"A\""] ++ ["|Note|Dur:4th"] ++ [nwcEndMarker]
        ++ ["|Bar|"] ++ [nwcEndMarker])).headerLines = ["h"] :=
  double_end_marker_duplicates_staff ["h"] "|AddStaff|Name:\"A\"" ["|Note|Dur:4th"] ["|Bar|"]
    (by decide) (by decide) (by decide) (by decide) (by decide)

/-! ### C5: pickup detection -/

theorem firstOccIdx_some_spec (n : List Char) :
    ∀ (l : List Char) (k : Nat), firstOccIdx n l = some k →
      n <+: l.drop k ∧ ∀ j < k, ¬ n <+: l.drop j := by
  intro l
  induction l with
  | nil =>
    intro k h
    unfold firstOccIdx at h
    by_cases he : n.isEmpty = true
    · rw [if_pos he] at h
      injection h with h0
      subst h0
      constructor
      · simp [List.isEmpty_iff.mp he]
      · intro j hj
        omega
    · rw [if_neg he] at h
      exact absurd h (by simp)
  | cons c cs ih =>
    intro k h
    unfold firstOccIdx at h
    by_cases hp : n.isPrefixOf (c :: cs) = true
    · rw [if_pos hp] at h
      injection h with h0
      subst h0
      refine ⟨List.isPrefixOf_iff_prefix.mp hp, ?_⟩
      intro j hj
      omega
    · rw [if_neg hp] at h
      cases hr : firstOccIdx n cs with
      | none => rw [hr] at h; exact absurd h (by simp)
      | some q =>
        rw [hr] at h
        simp only [Option.map_some'] at h
        injection h with h0
        subst h0
        obtain ⟨hq1, hq2⟩ := ih q hr
        refine ⟨hq1, ?_⟩
        intro j hj
        cases j with
        | zero =>
          simp only [List.drop_zero]
          intro hcontra
          exact hp (List.isPrefixOf_iff_prefix.mpr hcontra)
        | succ j' => exact hq2 j' (by omega)

theorem firstOccIdx_none_spec (n : List Char) (hn : n ≠ []) :
    ∀ (l : List Char), firstOccIdx n l = none → ∀ j, ¬ n <+: l.drop j := by
  intro l
  induction l with
  | nil =>
    intro _ j hcontra
    rw [List.drop_nil] at hcontra
    exact hn (List.prefix_nil.mp hcontra)
  | cons c cs ih =>
    intro h j
    unfold firstOccIdx at h
    by_cases hp : n.isPrefixOf (c :: cs) = true
    · rw [if_pos hp] at h; exact absurd h (by simp)
    · rw [if_neg hp] at h
      cases hr : firstOccIdx n cs with
      | some q => rw [hr] at h; exact absurd h (by simp)
      | none =>
        cases j with
        | zero =>
          simp only [List.drop_zero]
          intro hcontra
          exact hp (List.isPrefixOf_iff_prefix.mpr hcontra)
        | succ j' => exact ih hr j'

theorem containsSub_iff (n s : String) (hn : n.toList ≠ []) :
    containsSub n s = true ↔ ∃ i, n.toList <+: s.toList.drop i := by
  unfold containsSub
  cases hk : firstOccIdx n.toList s.toList with
  | none =>
    simp only [Option.isSome_none, Bool.false_eq_true, false_iff]
    rintro ⟨i, hi⟩
    exact firstOccIdx_none_spec n.toList hn s.toList hk i hi
  | some k =>
    simp only [Option.isSome_some, true_iff]
    exact ⟨k, (firstOccIdx_some_spec n.toList s.toList k hk).1⟩

/-- C5 counterexample: on a staff whose first line is a text element carrying
the rest marker inside its quoted value, `detect_begintel` returns true even
though no rest element appears before the first bar element — the claimed
equivalence fails as stated. -/
theorem detect_begintel_text_cex :
    detectBegintel (joinNl ["|Text|Text:\"|Rest|\"", "|Bar|", "|Note|Dur:4th"]) = true ∧
    specRestElementBeforeFirstBar ["|Text|Text:\"|Rest|\"", "|Bar|", "|Note|Dur:4th"]
      = false := by
  decide

/-- C5 (amended): `detect_begintel` returns true iff the rest marker occurs
(as a substring of the staff content) ending at or before the start of the
first occurrence of the bar marker (anywhere, when no bar marker occurs). -/
theorem detect_begintel_substring_iff (staffCont : String) :
    detectBegintel staffCont = true ↔
      ∃ i, nwcRest.toList <+: staffCont.toList.drop i ∧
        ∀ j, nwcBar.toList <+: staffCont.toList.drop j →
          i + nwcRest.toList.length ≤ j := by
  have hpos : 0 < nwcRest.toList.length := by decide
  unfold detectBegintel beforeFirstSub
  cases hk : firstOccIdx nwcBar.toList staffCont.toList with
  | none =>
    have hnone := firstOccIdx_none_spec nwcBar.toList (by decide) staffCont.toList hk
    rw [containsSub_iff _ _ (by decide)]
    constructor
    · rintro ⟨i, hi⟩
      exact ⟨i, hi, fun j hj => absurd hj (hnone j)⟩
    · rintro ⟨i, hi, _⟩
      exact ⟨i, hi⟩
  | some k =>
    obtain ⟨hkp, hkmin⟩ := firstOccIdx_some_spec nwcBar.toList staffCont.toList k hk
    rw [containsSub_iff _ _ (by decide)]
    constructor
    · rintro ⟨i, hi⟩
      rw [show (String.mk (staffCont.toList.take k)).toList = staffCont.toList.take k
          from rfl] at hi
      rw [List.drop_take, List.prefix_take_iff] at hi
      obtain ⟨hpre, hlen⟩ := hi
      refine ⟨i, hpre, ?_⟩
      intro j hj
      have hjk : k ≤ j := by
        by_contra hlt
        exact hkmin j (Nat.lt_of_not_le hlt) hj
      omega
    · rintro ⟨i, hi, hall⟩
      have hik : i + nwcRest.toList.length ≤ k := hall k hkp
      refine ⟨i, ?_⟩
      rw [show (String.mk (staffCont.toList.take k)).toList = staffCont.toList.take k
          from rfl]
      rw [List.drop_take, List.prefix_take_iff]
      exact ⟨hi, by omega⟩

/-! ### C8: lyric tokenization example -/

/-- C8 counterexample: applied to the bare quoted string (without the
`|Lyric1|Text:` field marker the regex requires), `parse_lyric_text` finds no
lyric payload and returns the empty list rather than the seven syllables. -/
theorem tokenize_lyrics_unprefixed_cex :
    parseLyricText "\"Al-le-lu-ja zingt het koor\"" = [] ∧
    parseLyricText "\"Al-le-lu-ja zingt het koor\""
      ≠ ["Al", "le", "lu", "ja", "zingt", "het", "koor"] := by
  decide

/-- C8 (amended): applied to a lyric line carrying the payload in its
`|Lyric1|Text:"..."` field, `parse_lyric_text` extracts the quoted payload
and splits it on spaces and hyphens into the seven syllables. -/
theorem tokenize_lyrics_example :
    parseLyricText "|Lyric1|Text:\"Al-le-lu-ja zingt het koor\""
      = ["Al", "le", "lu", "ja", "zingt", "het", "koor"] := by
  decide

/-! ### C4: tied runs consume one syllable -/

theorem lookupA_appendA_self (m : List (Int × List String)) (k : Int) (v : String) :
    lookupA (appendA m k v) k = some ((lookupA m k).getD [] ++ [v]) := by
  induction m with
  | nil => simp [appendA, lookupA]
  | cons p t ih =>
    obtain ⟨k0, v0⟩ := p
    by_cases hk : k0 = k
    · subst hk
      simp [appendA, lookupA]
    · simp [appendA, lookupA, hk, ih]

theorem lookupA_append_pair_ne (m : List (Int × List String)) (k q : Int)
    (v : List String) (h : k ≠ q) :
    lookupA (m ++ [(k, v)]) q = lookupA m q := by
  induction m with
  | nil => simp [lookupA, h]
  | cons p t ih =>
    obtain ⟨k0, v0⟩ := p
    by_cases hk : k0 = q
    · simp [lookupA, hk]
    · simp [lookupA, hk, ih]

theorem lookupA_ensureKey_ne (m : List (Int × List String)) (k q : Int) (h : k ≠ q) :
    lookupA (ensureKey m k) q = lookupA m q := by
  unfold ensureKey
  by_cases hs : (lookupA m k).isSome = true
  · rw [if_pos hs]
  · rw [if_neg hs]
    exact lookupA_append_pair_ne m k q [] h

/-- No line can start with two distinct element prefixes: a `|Rest|`-prefixed
line is neither `|Bar|`- nor `|Note|`-prefixed, and similarly for notes. -/
theorem startsW_excl {p q s : String} (hp : startsW p s = true)
    (hne : ¬ (p.toList <+: q.toList) ∧ ¬ (q.toList <+: p.toList)) :
    startsW q s = false := by
  unfold startsW at hp ⊢
  rw [List.isPrefixOf_iff_prefix] at hp
  cases hq : (q.toList.isPrefixOf s.toList : Bool)
  · rfl
  · exfalso
    rw [List.isPrefixOf_iff_prefix] at hq
    rcases List.prefix_or_prefix_of_prefix hp hq with h | h
    · exact hne.1 h
    · exact hne.2 h

/-- A rest element never changes the scanning state: the syllable cursor, the
measure counter, the skip flag and the measure map are all untouched. -/
theorem lyricStep_rest (syls : List String) (s : LyricState) (el : String)
    (hr : startsW nwcRest (pyStripStr el) = true) :
    lyricStep syls s el = s := by
  unfold lyricStep
  have hb : startsW nwcBar (pyStripStr el) = false :=
    startsW_excl hr (by constructor <;> decide)
  have hn : startsW nwcNote (pyStripStr el) = false :=
    startsW_excl hr (by constructor <;> decide)
  simp [hb, hn]

/-- Invariant while scanning the tail of a tied run: with the skip flag set
and every note tied, no further syllable is consumed and the entry of the
measure that received the run's syllable is unchanged. -/
theorem lyricRun_tail (syls : List String) (m0 : Int) (target : List String) :
    ∀ (mid : List String) (t : LyricState),
      (∀ e ∈ mid, startsW nwcNote (pyStripStr e) = true → isTiedEl (pyStripStr e) = true) →
      t.skipNextNote = true → m0 ≤ t.currentMeasure →
      lookupA t.measureMap m0 = some target →
      (processLyricEls syls mid t).syllableIndex = t.syllableIndex ∧
      lookupA (processLyricEls syls mid t).measureMap m0 = some target := by
  intro mid
  induction mid with
  | nil => intro t _ _ _ hl; exact ⟨rfl, hl⟩
  | cons e rest ih =>
    intro t hmid hskip hm hl
    have hstep : (lyricStep syls t e).skipNextNote = true ∧
        (lyricStep syls t e).syllableIndex = t.syllableIndex ∧
        m0 ≤ (lyricStep syls t e).currentMeasure ∧
        lookupA (lyricStep syls t e).measureMap m0 = some target := by
      by_cases hb : startsW nwcBar (pyStripStr e) = true
      · have he : lyricStep syls t e
            = { t with currentMeasure := t.currentMeasure + 1,
                       measureMap := ensureKey t.measureMap (t.currentMeasure + 1) } := by
          unfold lyricStep
          rw [if_pos hb]
        rw [he]
        refine ⟨hskip, rfl, ?_, ?_⟩
        · show m0 ≤ t.currentMeasure + 1
          omega
        · show lookupA (ensureKey t.measureMap (t.currentMeasure + 1)) m0 = some target
          rw [lookupA_ensureKey_ne _ _ _ (by omega)]
          exact hl
      · by_cases hn : startsW nwcNote (pyStripStr e) = true
            ∧ t.syllableIndex < syls.length
        · have he : lyricStep syls t e
              = { t with skipNextNote := isTiedEl (pyStripStr e) } := by
            unfold lyricStep
            rw [if_neg (by simp [hb]), if_pos hn, if_pos hskip]
          rw [he]
          exact ⟨hmid e (by simp) hn.1, rfl, hm, hl⟩
        · have he : lyricStep syls t e = t := by
            unfold lyricStep
            rw [if_neg (by simp [hb]), if_neg hn]
          rw [he]
          exact ⟨hskip, rfl, hm, hl⟩
    obtain ⟨h1, h2, h3, h4⟩ := hstep
    have := ih (lyricStep syls t e) (fun x hx => hmid x (by simp [hx])) h1 h3 h4
    unfold processLyricEls at this ⊢
    rw [List.foldl_cons]
    exact ⟨this.1.trans h2, this.2⟩

/-- C4 (amended): a maximal run of tied/slurred notes — every note carrying a
slur marker or ending with the tie glyph, possibly interleaved with non-note
elements — consumes exactly one syllable, assigned to the first note of the
run and to the measure containing that first note, provided the scanner's
skip flag is clear when the run starts (the run is not itself a tie
continuation) and the syllable cursor has not reached the end of the
syllable sequence; rest elements never consume a syllable. -/
theorem tied_run_consumes_one_syllable (syls : List String) (s : LyricState)
    (e0 : String) (mid : List String)
    (hskip : s.skipNextNote = false)
    (hidx : s.syllableIndex < syls.length)
    (h0 : startsW nwcNote (pyStripStr e0) = true)
    (h0t : isTiedEl (pyStripStr e0) = true)
    (hmid : ∀ e ∈ mid, startsW nwcNote (pyStripStr e) = true →
      isTiedEl (pyStripStr e) = true) :
    (processLyricEls syls (e0 :: mid) s).syllableIndex = s.syllableIndex + 1 ∧
    lookupA (processLyricEls syls (e0 :: mid) s).measureMap s.currentMeasure
      = some ((lookupA s.measureMap s.currentMeasure).getD []
          ++ [syls.getD s.syllableIndex ""]) ∧
    (∀ (t : LyricState) (el : String), startsW nwcRest (pyStripStr el) = true →
      lyricStep syls t el = t) := by
  have hb0 : startsW nwcBar (pyStripStr e0) = false :=
    startsW_excl h0 (by constructor <;> decide)
  have hstep0 : lyricStep syls s e0 =
      { s with measureMap := appendA s.measureMap s.currentMeasure
                 (syls.getD s.syllableIndex ""),
               syllableIndex := s.syllableIndex + 1,
               skipNextNote := isTiedEl (pyStripStr e0) } := by
    unfold lyricStep
    rw [if_neg (by simp [hb0]), if_pos (And.intro h0 hidx), if_neg (by simp [hskip])]
  have htail := lyricRun_tail syls s.currentMeasure
    ((lookupA s.measureMap s.currentMeasure).getD [] ++ [syls.getD s.syllableIndex ""])
    mid (lyricStep syls s e0) hmid
    (by rw [hstep0]; exact h0t)
    (by rw [hstep0])
    (by rw [hstep0]; exact lookupA_appendA_self _ _ _)
  unfold processLyricEls at htail ⊢
  rw [List.foldl_cons]
  refine ⟨?_, htail.2, fun t el hr => lyricStep_rest syls t el hr⟩
  rw [htail.1, hstep0]

/-- Witness for C4 at a concrete tied run (slurred note, bar line, note with
tie glyph, then a rest). -/
theorem tied_run_consumes_one_syllable_witness :
    (processLyricEls ["la", "bc"]
      ("|Note|Dur:4th,Slur" :: ["|Bar|", "|Note|Dur:8th^", "|Rest|Dur:4th"])
      initLyricState).syllableIndex = initLyricState.syllableIndex + 1 ∧
    lookupA (processLyricEls ["la", "bc"]
      ("|Note|Dur:4th,Slur" :: ["|Bar|", "|Note|Dur:8th^", "|Rest|Dur:4th"])
      initLyricState).measureMap initLyricState.currentMeasure = some ["la"] ∧
    lyricStep ["la", "bc"] initLyricState "|Rest|Dur:4th" = initLyricState := by
  have h := tied_run_consumes_one_syllable ["la", "bc"] initLyricState
    "|Note|Dur:4th,Slur" ["|Bar|", "|Note|Dur:8th^", "|Rest|Dur:4th"]
    (by decide) (by decide) (by decide) (by decide) (by decide)
  exact ⟨h.1, h.2.1, h.2.2 initLyricState "|Rest|Dur:4th" (by decide)⟩

/-- C4 counterexample: with an exhausted (empty) syllable sequence, a maximal
tied run (a single slurred note) consumes no syllable at all — not exactly
one as the claim states for every syllable sequence. -/
theorem tied_run_empty_syllables_cex :
    (processLyricEls [] ["|Note|Dur:4th,Slur"] initLyricState).syllableIndex = 0 ∧
    (processLyricEls [] ["|Note|Dur:4th,Slur"] initLyricState).measureMap = [] := by
  decide

/-! ### C2: corrected total measures -/

/-- C2: whenever the complete analysis succeeds (both required staves
present), the reported corrected total measures equals the raw total minus
the lead-in count: the bar count of the required staff, incremented by one
when no pickup measure is detected, minus the vooraf count. -/
theorem analyze_complete_corrected_total (d : NwcDoc) (t0 : Option Int)
    (ts0 : Option String) (fn fd : String) (r : CompleteAnalysis)
    (h : analyzeCompleteSong d t0 ts0 fn fd = some r) :
    ∃ bass, getStaffByName d bassStaffName = some bass ∧
      r.totalMeasures =
        ((countBarsInStaff (staffContent bass) : Int)
            + (if detectBegintel (staffContent bass) then 0 else 1))
          - (countVooraf (staffContent bass) : Int) := by
  cases hbass : getStaffByName d bassStaffName with
  | none =>
    exfalso
    simp only [analyzeCompleteSong, analyzeNwctxt, hbass] at h
    exact Option.noConfusion h
  | some bass =>
    refine ⟨bass, rfl, ?_⟩
    cases hz : getStaffByName d zangStaffName with
    | none =>
      exfalso
      simp only [analyzeCompleteSong, analyzeNwctxt, hbass, hz] at h
      exact Option.noConfusion h
    | some zang =>
      simp only [analyzeCompleteSong, analyzeNwctxt, hbass, hz] at h
      have hr := Option.some.inj h
      rw [← hr]
      by_cases hd : detectBegintel (staffContent bass) = true
      · simp [hd]
      · simp [hd]

def c2WitnessDoc : NwcDoc := parseNwc
  ["|AddStaff|Name:\"Bass\"", "|Bar|", "|AddStaff|Name:\"Zang\"", nwcEndMarker]

def c2WitnessAnalysis : CompleteAnalysis :=
  { title := "Unknown", file := "f", folder := "d", tempo := none, timesig := none,
    totalBars := 1, hasBegintel := false, vooraf := 0, totalMeasures := 2,
    totalDuration := none, measureMap := [] }

/-- Witness for C2 at a concrete two-staff document. -/
theorem analyze_complete_corrected_total_witness :
    ∃ bass, getStaffByName c2WitnessDoc bassStaffName = some bass ∧
      c2WitnessAnalysis.totalMeasures =
        ((countBarsInStaff (staffContent bass) : Int)
            + (if detectBegintel (staffContent bass) then 0 else 1))
          - (countVooraf (staffContent bass) : Int) :=
  analyze_complete_corrected_total c2WitnessDoc none none "f" "d" c2WitnessAnalysis
    (by decide)

/-! ### C3: measure 0 is not excluded from the renumbered report -/

/-- A merged document whose bass staff has one lead-in (vooraf) measure and
whose vocal staff carries a syllable before the first bar marker. -/
def measureZeroLeakDoc : NwcDoc := parseNwc
  ["|AddStaff|Name:\"Bass\"", "|Bar|", "|Text|Text:\"liedstart\"", "|Note|Dur:4th",
   "|AddStaff|Name:\"Zang\"", "|Lyric1|Text:\"ky-rie\"", "|Note|Dur:4th", "|Bar|",
   "|Note|Dur:4th", nwcEndMarker]

/-- The rendered report for that document (complete analysis). -/
def measureZeroLeakReport : List String :=
  match analyzeCompleteSong measureZeroLeakDoc none none "lied.nwctxt" "build" with
  | some r => formatOutput r none
  | none => []

/-- C3 (code bug): with one vooraf measure, the renumbering maps original
measure 0 (content before the first bar marker) to measure -1, which the
`measure_num == 0` skip in `format_output` does not exclude: the rendered
report contains the pre-first-bar syllable as the row for measure -1. -/
theorem measure_zero_leak_eval :
    "-1\tky" ∈ measureZeroLeakReport ∧ measureZeroLeakReport ≠ [] := by
  decide

/-! ### C6: get_duration raises on a malformed time signature -/

/-- C6 (code bug): `get_duration` parses the time-signature components with
bare `int(...)` calls: a malformed time signature (no numeric beat count)
raises `ValueError` out of the duration computation instead of degrading to
an unknown (null) duration. -/
theorem get_duration_malformed_timesig_raises :
    getDuration (some [("A", some 8, some 0)]) (some 120) (some "abc") (some 0)
      = Except.error "ValueError" := rfl

/-! ### C7: separator insertion at the concatenation join -/

def concatFirstFile : PFile :=
  ⟨["hdr"], [["|AddStaff|Name:\"A\"", "|Note|Dur:4th"]]⟩

def concatSetupOnlyFile : PFile :=
  ⟨[], [["|AddStaff|Name:\"A\"", "|Clef|Type:Bass"]]⟩

/-- C7 counterexample: when every line of the second document's staff is a
setup line, the remainder after dropping is empty — it does not begin with a
bar element, yet no double-bar separator is inserted at the join. -/
theorem concat_empty_remainder_cex :
    dropSetupLines false ["|AddStaff|Name:\"A\"", "|Clef|Type:Bass"] = [] ∧
    doubleBarLine ∉ concatenateNwctxt concatFirstFile [concatSetupOnlyFile] false := by
  decide

/-- C7 (amended): concatenating two one-staff documents, with at least one
line of the second staff remaining after its setup lines are dropped: when
the remainder does not begin with a bar element, exactly one double-bar
separator is inserted at the join, immediately before the remaining lines;
when the remainder begins with a bar element, or nothing remains, no
separator is inserted. -/
theorem concat_two_single_staff_join (hd1 s1 hd2 s2 : List String) (keep : Bool) :
    (∀ h t, dropSetupLines keep s2 = h :: t → startsW nwcBar h = false →
      concatenateNwctxt ⟨hd1, [s1]⟩ [⟨hd2, [s2]⟩] keep
        = hd1 ++ s1 ++ [doubleBarLine] ++ dropSetupLines keep s2 ++ [nwcEndMarker]) ∧
    (∀ h t, dropSetupLines keep s2 = h :: t → startsW nwcBar h = true →
      concatenateNwctxt ⟨hd1, [s1]⟩ [⟨hd2, [s2]⟩] keep
        = hd1 ++ s1 ++ dropSetupLines keep s2 ++ [nwcEndMarker]) ∧
    (dropSetupLines keep s2 = [] →
      concatenateNwctxt ⟨hd1, [s1]⟩ [⟨hd2, [s2]⟩] keep
        = hd1 ++ s1 ++ [nwcEndMarker]) := by
  have hcc : concatenateNwctxt ⟨hd1, [s1]⟩ [⟨hd2, [s2]⟩] keep
      = hd1 ++ (joinSecondStaff keep s1 s2 ++ []) ++ [nwcEndMarker] := rfl
  refine ⟨?_, ?_, ?_⟩
  · intro h t he hb
    rw [hcc]
    unfold joinSecondStaff
    rw [he]
    simp only [hb, Bool.false_eq_true, if_false]
    simp [List.append_assoc]
  · intro h t he hb
    rw [hcc]
    unfold joinSecondStaff
    rw [he]
    simp only [hb, if_true]
    simp [List.append_assoc]
  · intro he
    rw [hcc]
    unfold joinSecondStaff
    rw [he]
    simp

/-- Witness for C7 at concrete documents whose second staff keeps a note. -/
theorem concat_two_single_staff_join_witness :
    concatenateNwctxt ⟨["hdr"], [["|AddStaff|Name:\"A\"", "|Note|Dur:4th"]]⟩
        [⟨[], [["|AddStaff|Name:\"A\"", "|Clef|Type:Bass", "|Note|Dur:8th"]]⟩] false
      = ["hdr"] ++ ["|AddStaff|Name:\"A\"", "|Note|Dur:4th"] ++ [doubleBarLine]
          ++ dropSetupLines false ["|AddStaff|Name:\"A\"", "|Clef|Type:Bass", "|Note|Dur:8th"]
          ++ [nwcEndMarker] :=
  (concat_two_single_staff_join ["hdr"] ["|AddStaff|Name:\"A\"", "|Note|Dur:4th"]
      [] ["|AddStaff|Name:\"A\"", "|Clef|Type:Bass", "|Note|Dur:8th"] false).1
    "|Note|Dur:8th" [] (by decide) (by decide)

/-! ### C9: mute/volume rewrite frame -/

theorem mutedRw_subMutFuel (flag : Char) :
    ∀ (f : Nat) (l : List Char), l.length ≤ f → MutedRw flag l (subMutFuel flag f l) := by
  intro f
  induction f with
  | zero =>
    intro l hl
    have hnil : l = [] := List.eq_nil_of_length_eq_zero (Nat.le_zero.mp hl)
    subst hnil
    exact MutedRw.nil
  | succ f ih =>
    intro l hl
    cases l with
    | nil => exact MutedRw.nil
    | cons c cs =>
      by_cases hc : mutedKeyChars.isPrefixOf (c :: cs) = true
          ∧ flagYN ((c :: cs).drop 6) = true
      · have hmk : mutedKeyChars.length = 6 := rfl
        have h1 := List.isPrefixOf_iff_prefix.mp hc.1
        have h2 := List.prefix_iff_eq_take.mp h1
        rw [hmk] at h2
        have hpre : (c :: cs) = mutedKeyChars ++ (c :: cs).drop 6 := by
          calc c :: cs = (c :: cs).take 6 ++ (c :: cs).drop 6 :=
                (List.take_append_drop 6 (c :: cs)).symm
            _ = mutedKeyChars ++ (c :: cs).drop 6 := by rw [← h2]
        obtain ⟨d, r6, hd6⟩ : ∃ d r6, (c :: cs).drop 6 = d :: r6 := by
          cases h6 : (c :: cs).drop 6 with
          | nil => rw [h6] at hc; exact absurd hc.2 (by simp [flagYN])
          | cons d r6 => exact ⟨d, r6, rfl⟩
        have hyn : d = 'Y' ∨ d = 'N' := by
          have h' := hc.2
          rw [hd6] at h'
          simp only [flagYN] at h'
          rcases Bool.or_eq_true_iff.mp h' with h | h
          · exact Or.inl (by simpa using h)
          · exact Or.inr (by simpa using h)
        have hr7 : (c :: cs).drop 7 = r6 := by
          have hdd : (c :: cs).drop 7 = ((c :: cs).drop 6).drop 1 := by
            rw [List.drop_drop]
          rw [hdd, hd6]
          rfl
        have hstep : subMutFuel flag (f + 1) (c :: cs)
            = mutedKeyChars ++ flag :: subMutFuel flag f ((c :: cs).drop 7) := by
          conv_lhs => unfold subMutFuel
          rw [if_pos hc]
        have hlr : r6.length ≤ f := by
          have h7 : ((c :: cs).drop 7).length = (c :: cs).length - 7 :=
            List.length_drop 7 (c :: cs)
          rw [hr7] at h7
          simp only [List.length_cons] at h7 hl
          omega
        rw [hstep, hr7]
        have hgoal : MutedRw flag (mutedKeyChars ++ d :: r6)
            (mutedKeyChars ++ flag :: subMutFuel flag f r6) :=
          MutedRw.rw d hyn (ih r6 hlr)
        rw [← hd6] at hgoal
        rw [← hpre] at hgoal
        exact hgoal
      · have hstep : subMutFuel flag (f + 1) (c :: cs)
            = c :: subMutFuel flag f cs := by
          conv_lhs => unfold subMutFuel
          rw [if_neg hc]
        rw [hstep]
        have hlc : cs.length ≤ f := by
          simp only [List.length_cons] at hl
          omega
        exact MutedRw.copy c (ih cs hlc)

theorem volumeRw_subVolFuel (ds : List Char) :
    ∀ (f : Nat) (l : List Char), l.length ≤ f → VolumeRw ds l (subVolFuel ds f l) := by
  intro f
  induction f with
  | zero =>
    intro l hl
    have hnil : l = [] := List.eq_nil_of_length_eq_zero (Nat.le_zero.mp hl)
    subst hnil
    exact VolumeRw.nil
  | succ f ih =>
    intro l hl
    cases l with
    | nil => exact VolumeRw.nil
    | cons c cs =>
      by_cases hc : volumeKeyChars.isPrefixOf (c :: cs) = true
          ∧ headDigit ((c :: cs).drop 7) = true
      · have hmk : volumeKeyChars.length = 7 := rfl
        have h1 := List.isPrefixOf_iff_prefix.mp hc.1
        have h2 := List.prefix_iff_eq_take.mp h1
        rw [hmk] at h2
        have hpre : (c :: cs) = volumeKeyChars ++ (c :: cs).drop 7 := by
          calc c :: cs = (c :: cs).take 7 ++ (c :: cs).drop 7 :=
                (List.take_append_drop 7 (c :: cs)).symm
            _ = volumeKeyChars ++ (c :: cs).drop 7 := by rw [← h2]
        have holds : ((c :: cs).drop 7).takeWhile Char.isDigit ≠ [] := by
          cases h6 : (c :: cs).drop 7 with
          | nil => rw [h6] at hc; exact absurd hc.2 (by simp [headDigit])
          | cons d r7 =>
            have hdig : d.isDigit = true := by
              have h' := hc.2
              rw [h6] at h'
              simpa [headDigit] using h'
            simp [List.takeWhile, hdig]
        have hdigits : ∀ x ∈ ((c :: cs).drop 7).takeWhile Char.isDigit,
            x.isDigit = true :=
          fun x hx => List.mem_takeWhile_imp hx
        have hstep : subVolFuel ds (f + 1) (c :: cs)
            = volumeKeyChars ++ ds
                ++ subVolFuel ds f (((c :: cs).drop 7).dropWhile Char.isDigit) := by
          conv_lhs => unfold subVolFuel
          rw [if_pos hc]
        have hlr : (((c :: cs).drop 7).dropWhile Char.isDigit).length ≤ f := by
          have ha : (((c :: cs).drop 7).dropWhile Char.isDigit).length
              ≤ ((c :: cs).drop 7).length :=
            (List.dropWhile_sublist Char.isDigit).length_le
          have hb2 : ((c :: cs).drop 7).length = (c :: cs).length - 7 :=
            List.length_drop 7 (c :: cs)
          simp only [List.length_cons] at hb2 hl
          omega
        rw [hstep]
        have hgoal : VolumeRw ds
            (volumeKeyChars ++ (((c :: cs).drop 7).takeWhile Char.isDigit
              ++ ((c :: cs).drop 7).dropWhile Char.isDigit))
            (volumeKeyChars
              ++ (ds ++ subVolFuel ds f (((c :: cs).drop 7).dropWhile Char.isDigit))) :=
          VolumeRw.rw (((c :: cs).drop 7).takeWhile Char.isDigit) holds hdigits
            (ih (((c :: cs).drop 7).dropWhile Char.isDigit) hlr)
        rw [List.takeWhile_append_dropWhile] at hgoal
        rw [← List.append_assoc] at hgoal
        rw [← hpre] at hgoal
        exact hgoal
      · have hstep : subVolFuel ds (f + 1) (c :: cs)
            = c :: subVolFuel ds f cs := by
          conv_lhs => unfold subVolFuel
          rw [if_neg hc]
        rw [hstep]
        have hlc : cs.length ≤ f := by
          simp only [List.length_cons] at hl
          omega
        exact VolumeRw.copy c (ih cs hlc)

theorem secondSPIdxAux_lt :
    ∀ (ls : List String) (i cnt k : Nat), secondSPIdxAux ls i cnt = some k →
      i ≤ k ∧ k < i + ls.length := by
  intro ls
  induction ls with
  | nil => intro i cnt k h; exact absurd h (by simp [secondSPIdxAux])
  | cons l t ih =>
    intro i cnt k h
    unfold secondSPIdxAux at h
    by_cases hsp : startsW nwcStaffProps l = true
    · rw [if_pos hsp] at h
      by_cases h2 : cnt + 1 = 2
      · rw [if_pos h2] at h
        injection h with h0
        subst h0
        simp
      · rw [if_neg h2] at h
        have := ih (i + 1) (cnt + 1) k h
        constructor <;> [omega; (simp only [List.length_cons]; omega)]
    · rw [if_neg hsp] at h
      have := ih (i + 1) cnt k h
      constructor <;> [omega; (simp only [List.length_cons]; omega)]

theorem secondSPIdx_lt (lines : List String) (i : Nat)
    (h : secondSPIdx lines = some i) : i < lines.length := by
  have := secondSPIdxAux_lt lines 0 0 i h
  omega

/-- C9: `set_muted_and_volume` changes at most the second staff-properties
line: every other line is returned unchanged; on that line, only `Muted:`
flag characters (rewritten to the requested flag) and `Volume:` digit runs
(rewritten to the requested volume's digits) change, all other characters
staying in place; with fewer than two staff-properties lines the staff is
left entirely unchanged. -/
theorem set_muted_frame (lines : List String) (muted : Bool) (volume : Nat) :
    (secondSPIdx lines = none → setMutedAndVolume lines muted volume = lines) ∧
    (∀ i, secondSPIdx lines = some i →
      (∀ j, j ≠ i → (setMutedAndVolume lines muted volume).get? j = lines.get? j) ∧
      ∃ mid, MutedRw (muteFlag muted) (lines.getD i "").toList mid ∧
        VolumeRw (volumeDigits volume) mid
          (((setMutedAndVolume lines muted volume).getD i "").toList)) := by
  constructor
  · intro h
    unfold setMutedAndVolume
    rw [h]
  · intro i hi
    have hlt : i < lines.length := secondSPIdx_lt lines i hi
    have hset : setMutedAndVolume lines muted volume
        = lines.set i (reSubVolume (volumeDigits volume)
            (reSubMuted (muteFlag muted) (lines.getD i ""))) := by
      unfold setMutedAndVolume
      rw [hi]
    constructor
    · intro j hj
      rw [hset, List.get?_eq_getElem?, List.get?_eq_getElem?,
        List.getElem?_set_ne (fun he => hj he.symm)]
    · refine ⟨(reSubMuted (muteFlag muted) (lines.getD i "")).toList, ?_, ?_⟩
      · show MutedRw (muteFlag muted) (lines.getD i "").toList
          (subMutFuel (muteFlag muted) (lines.getD i "").toList.length
            (lines.getD i "").toList)
        exact mutedRw_subMutFuel (muteFlag muted) _ _ (le_refl _)
      · rw [hset]
        have hgd : (lines.set i (reSubVolume (volumeDigits volume)
            (reSubMuted (muteFlag muted) (lines.getD i "")))).getD i ""
            = reSubVolume (volumeDigits volume)
                (reSubMuted (muteFlag muted) (lines.getD i "")) := by
          rw [List.getD, List.get?_eq_getElem?, List.getElem?_set_eq_of_lt _ hlt,
            Option.getD_some]
        rw [hgd]
        show VolumeRw (volumeDigits volume)
          (reSubMuted (muteFlag muted) (lines.getD i "")).toList
          (subVolFuel (volumeDigits volume)
            (reSubMuted (muteFlag muted) (lines.getD i "")).toList.length
            (reSubMuted (muteFlag muted) (lines.getD i "")).toList)
        exact volumeRw_subVolFuel (volumeDigits volume) _ _ (le_refl _)

/-- Witness for C9 at a concrete three-line staff. -/
theorem set_muted_frame_witness :
    (setMutedAndVolume ["|AddStaff|Name:\"B\"", "|StaffProperties|EndingBar:Open",
        "|StaffProperties|Muted:N|Volume:127"] true 99).get? 1
      = (["|AddStaff|Name:\"B\"", "|StaffProperties|EndingBar:Open",
          "|StaffProperties|Muted:N|Volume:127"] : List String).get? 1 ∧
    ∃ mid, MutedRw (muteFlag true)
        ((["|AddStaff|Name:\"B\"", "|StaffProperties|EndingBar:Open",
           "|StaffProperties|Muted:N|Volume:127"] : List String).getD 2 "").toList mid ∧
      VolumeRw (volumeDigits 99) mid
        (((setMutedAndVolume ["|AddStaff|Name:\"B\"", "|StaffProperties|EndingBar:Open",
            "|StaffProperties|Muted:N|Volume:127"] true 99).getD 2 "").toList) := by
  have h := (set_muted_frame ["|AddStaff|Name:\"B\"", "|StaffProperties|EndingBar:Open",
    "|StaffProperties|Muted:N|Volume:127"] true 99).2 2 (by decide)
  exact ⟨h.1 1 (by decide), h.2⟩
